import Mathlib

/-!
A verification development for the PixelCNN implementation in
`src/autoregressive/pixelCNN.py`.

Images and feature maps are embedded as integer-indexed functions into the
reals; masks are rational 0/1 grids.  Convolutions, the masked-convolution
layers, the gated blocks, the forward pass, the likelihood and the sampling
loop are translated directly from the source.  Stateful weight updates
(`self.conv.weight.data *= self.mask`) are embedded in state-passing style:
`MaskedConvolution.forward` returns the new layer state next to the output.
-/

/-- A feature map with `C` channels: real values indexed by channel, row and
column.  Values outside the spatial grid are irrelevant: every consumer reads
a map through `boundedGet`, which zero-pads outside the grid exactly as the
zero padding of `nn.Conv2d` does. -/
def FeatureMap (C : ℕ) : Type := Fin C → ℤ → ℤ → ℝ

/-- An integer image with `C` channels (pixel intensities, or the `-1`
sentinel during sampling). -/
def IntImage (C : ℕ) : Type := Fin C → ℤ → ℤ → ℤ

/-- Zero-padded access to a spatial map on an `H × W` grid. -/
noncomputable def boundedGet (H W : ℕ) (f : ℤ → ℤ → ℝ) (i j : ℤ) : ℝ :=
  if 0 ≤ i ∧ i < (H : ℤ) ∧ 0 ≤ j ∧ j < (W : ℤ) then f i j else 0

/-- Parameters of an `nn.Conv2d`: a weight kernel and a bias. -/
structure Conv2dParams (cin cout kh kw : ℕ) where
  weight : Fin cout → Fin cin → Fin kh → Fin kw → ℝ
  bias : Fin cout → ℝ

/-- The padding chosen by `MaskedConvolution.__init__` for one spatial
dimension: `dilation * (kernel_size - 1) // 2` (line 22, stride 1). -/
def padOf (d k : ℕ) : ℕ := d * (k - 1) / 2

/-- `nn.Conv2d` with stride 1, dilation `d` and the zero padding
`padOf d kernel` per spatial dimension, applied to an `H × W` input. -/
noncomputable def conv2dApply {cin cout kh kw : ℕ} (p : Conv2dParams cin cout kh kw)
    (d H W : ℕ) (x : FeatureMap cin) : FeatureMap cout :=
  fun oc i j => p.bias oc + ∑ ic : Fin cin, ∑ a : Fin kh, ∑ b : Fin kw,
    p.weight oc ic a b *
      boundedGet H W (x ic) (i + (d : ℤ) * ((a : ℕ) : ℤ) - ((padOf d kh : ℕ) : ℤ))
        (j + (d : ℤ) * ((b : ℕ) : ℤ) - ((padOf d kw : ℕ) : ℤ))

/-- The vertical-stack mask built by `VerticalStackConvolution.__init__`
(lines 38-43): a `k × k` grid of ones with every row strictly below the
center row zeroed, and the center row itself zeroed as well when
`maskCenter` is set. -/
def verticalMask (k : ℕ) (maskCenter : Bool) : Fin k → Fin k → ℚ :=
  fun a _ =>
    if k / 2 + 1 ≤ (a : ℕ) then 0
    else if maskCenter = true ∧ (a : ℕ) = k / 2 then 0
    else 1

/-- The horizontal-stack mask built by `HorizontalStackConvolution.__init__`
(lines 53-58): a `1 × k` grid of ones with every column strictly right of the
center column zeroed, and the center column itself zeroed as well when
`maskCenter` is set. -/
def horizontalMask (k : ℕ) (maskCenter : Bool) : Fin 1 → Fin k → ℚ :=
  fun _ b =>
    if k / 2 + 1 ≤ (b : ℕ) then 0
    else if maskCenter = true ∧ (b : ℕ) = k / 2 then 0
    else 1

/-- `MaskedConvolution`: a convolution together with the registered mask
buffer and the dilation it was constructed with. -/
structure MaskedConvolution (cin cout kh kw : ℕ) where
  conv : Conv2dParams cin cout kh kw
  mask : Fin kh → Fin kw → ℚ
  dilation : ℕ

/-- `MaskedConvolution.__init__` (lines 11-26): the kernel size of the
wrapped convolution is taken from the shape of the mask
(`kernel_size = (mask.shape[0], mask.shape[1])`, line 20), so kernel and
mask dimensions agree by construction.  The convolution weight and bias are
the freshly initialized parameters `w` and `b`. -/
def MaskedConvolution.init {kh kw : ℕ} (cin cout : ℕ) (mask : Fin kh → Fin kw → ℚ)
    (d : ℕ) (w : Fin cout → Fin cin → Fin kh → Fin kw → ℝ) (b : Fin cout → ℝ) :
    MaskedConvolution cin cout kh kw :=
  { conv := { weight := w, bias := b }, mask := mask, dilation := d }

/-- The destructive in-place masking `self.conv.weight.data *= self.mask`
(line 29): the stored weight is replaced by its element-wise product with
the mask. -/
def MaskedConvolution.maskWeights {cin cout kh kw : ℕ}
    (m : MaskedConvolution cin cout kh kw) : MaskedConvolution cin cout kh kw :=
  { m with conv := { m.conv with
      weight := fun oc ic a b => m.conv.weight oc ic a b * ((m.mask a b : ℚ) : ℝ) } }

/-- `MaskedConvolution.forward` (lines 28-30): first multiplies the stored
weight in place by the mask, then runs the convolution with the now-masked
stored weight.  Embedded in state-passing style: the result is the mutated
layer state next to the output feature map. -/
noncomputable def MaskedConvolution.forward {cin cout kh kw : ℕ}
    (m : MaskedConvolution cin cout kh kw) (H W : ℕ) (x : FeatureMap cin) :
    MaskedConvolution cin cout kh kw × FeatureMap cout :=
  (m.maskWeights, conv2dApply m.maskWeights.conv m.dilation H W x)

/-- `VerticalStackConvolution.__init__`: builds the vertical mask for the
requested kernel size and hands it to `MaskedConvolution.init`. -/
def VerticalStackConvolution (cin cout k : ℕ) (maskCenter : Bool) (d : ℕ)
    (w : Fin cout → Fin cin → Fin k → Fin k → ℝ) (b : Fin cout → ℝ) :
    MaskedConvolution cin cout k k :=
  MaskedConvolution.init cin cout (verticalMask k maskCenter) d w b

/-- `HorizontalStackConvolution.__init__`: builds the horizontal mask for the
requested kernel size and hands it to `MaskedConvolution.init`. -/
def HorizontalStackConvolution (cin cout k : ℕ) (maskCenter : Bool) (d : ℕ)
    (w : Fin cout → Fin cin → Fin 1 → Fin k → ℝ) (b : Fin cout → ℝ) :
    MaskedConvolution cin cout 1 k :=
  MaskedConvolution.init cin cout (horizontalMask k maskCenter) d w b

/-- `torch.sigmoid`. -/
noncomputable def sigmoid (x : ℝ) : ℝ := 1 / (1 + Real.exp (-x))

/-- `F.elu` with the default `alpha = 1`. -/
noncomputable def elu (x : ℝ) : ℝ := if 0 < x then x else Real.exp x - 1

/-- `F.softmax` over a logit vector. -/
noncomputable def softmax {n : ℕ} (v : Fin n → ℝ) (i : Fin n) : ℝ :=
  Real.exp (v i) / ∑ j, Real.exp (v j)

/-- First half of `tensor.chunk(2, dim=1)` along the channel dimension. -/
def chunkLo {c : ℕ} (f : FeatureMap (2 * c)) : FeatureMap c :=
  fun ch i j => f ⟨ch.1, by have h := ch.2; omega⟩ i j

/-- Second half of `tensor.chunk(2, dim=1)` along the channel dimension. -/
def chunkHi {c : ℕ} (f : FeatureMap (2 * c)) : FeatureMap c :=
  fun ch i j => f ⟨c + ch.1, by have h := ch.2; omega⟩ i j

/-- Parameters of `GatedMaskedConv` (lines 63-73): the vertical and
horizontal masked convolutions (kernel size 3, center not masked) and the
two auxiliary 1×1 convolutions. -/
structure GatedMaskedConv (c : ℕ) where
  wVert : Fin (2 * c) → Fin c → Fin 3 → Fin 3 → ℝ
  bVert : Fin (2 * c) → ℝ
  wHoriz : Fin (2 * c) → Fin c → Fin 1 → Fin 3 → ℝ
  bHoriz : Fin (2 * c) → ℝ
  vertToHoriz : Conv2dParams (2 * c) (2 * c) 1 1
  horiz1x1 : Conv2dParams c c 1 1

/-- The pre-split vertical feature map `v_stack_feat` of
`GatedMaskedConv.forward` (line 77). -/
noncomputable def GatedMaskedConv.vFeat {c : ℕ} (g : GatedMaskedConv c) (d H W : ℕ)
    (vStack : FeatureMap c) : FeatureMap (2 * c) :=
  ((VerticalStackConvolution c (2 * c) 3 false d g.wVert g.bVert).forward H W vStack).2

/-- The gated vertical output `v_stack_out` (lines 78-79). -/
noncomputable def GatedMaskedConv.vOut {c : ℕ} (g : GatedMaskedConv c) (d H W : ℕ)
    (vStack : FeatureMap c) : FeatureMap c :=
  fun ch i j => Real.tanh (chunkLo (g.vFeat d H W vStack) ch i j)
    * sigmoid (chunkHi (g.vFeat d H W vStack) ch i j)

/-- The horizontal feature map after injecting the vertical context
(lines 82-83): the horizontal masked convolution of the horizontal stack
plus the 1×1 projection of the pre-split vertical feature map. -/
noncomputable def GatedMaskedConv.hFeat {c : ℕ} (g : GatedMaskedConv c) (d H W : ℕ)
    (vStack hStack : FeatureMap c) : FeatureMap (2 * c) :=
  fun ch i j =>
    ((HorizontalStackConvolution c (2 * c) 3 false d g.wHoriz g.bHoriz).forward H W hStack).2
        ch i j
      + conv2dApply g.vertToHoriz 1 H W (g.vFeat d H W vStack) ch i j

/-- The gated horizontal output with the 1×1 projection and the residual
connection (lines 84-87). -/
noncomputable def GatedMaskedConv.hOut {c : ℕ} (g : GatedMaskedConv c) (d H W : ℕ)
    (vStack hStack : FeatureMap c) : FeatureMap c :=
  fun ch i j =>
    conv2dApply g.horiz1x1 1 H W
        (fun ch' i' j' => Real.tanh (chunkLo (g.hFeat d H W vStack hStack) ch' i' j')
          * sigmoid (chunkHi (g.hFeat d H W vStack hStack) ch' i' j')) ch i j
      + hStack ch i j

/-- `GatedMaskedConv.forward` (lines 75-89), with the dilation the layer was
constructed with passed explicitly. -/
noncomputable def GatedMaskedConv.forward {c : ℕ} (g : GatedMaskedConv c) (d H W : ℕ)
    (vStack hStack : FeatureMap c) : FeatureMap c × FeatureMap c :=
  (g.vOut d H W vStack, g.hOut d H W vStack hStack)

/-- Sequential application of the gated layers with their dilations
(`for layer in self.conv_layers`, lines 129-130). -/
noncomputable def runLayers {c : ℕ} (ls : List (ℕ × GatedMaskedConv c)) (H W : ℕ)
    (v h : FeatureMap c) : FeatureMap c × FeatureMap c :=
  match ls with
  | [] => (v, h)
  | (d, g) :: rest => runLayers rest H W (g.forward d H W v h).1 (g.forward d H W v h).2

/-- Parameters of the `PixelCNN` module (lines 94-112): the two initial
center-masked stack convolutions, the seven gated layers, and the 1×1 output
convolution into `c_in * 256` channels. -/
structure PixelCNNModel (cin chidden : ℕ) where
  wV : Fin chidden → Fin cin → Fin 3 → Fin 3 → ℝ
  bV : Fin chidden → ℝ
  wH : Fin chidden → Fin cin → Fin 1 → Fin 3 → ℝ
  bH : Fin chidden → ℝ
  layer0 : GatedMaskedConv chidden
  layer1 : GatedMaskedConv chidden
  layer2 : GatedMaskedConv chidden
  layer3 : GatedMaskedConv chidden
  layer4 : GatedMaskedConv chidden
  layer5 : GatedMaskedConv chidden
  layer6 : GatedMaskedConv chidden
  convOut : Conv2dParams chidden (cin * 256) 1 1

/-- The gated-layer list with the dilation schedule `[1, 2, 1, 4, 1, 2, 1]`
fixed in `PixelCNN.__init__` (lines 102-110). -/
def gatedLayerList {cin chidden : ℕ} (m : PixelCNNModel cin chidden) :
    List (ℕ × GatedMaskedConv chidden) :=
  [(1, m.layer0), (2, m.layer1), (1, m.layer2), (4, m.layer3),
   (1, m.layer4), (2, m.layer5), (1, m.layer6)]

/-- The input rescaling `(x.float() / 255.0) * 2 - 1` (line 123), applied to
any integer input with no validation. -/
noncomputable def rescalePixel (v : ℤ) : ℝ := (v : ℝ) / 255 * 2 - 1

/-- The two initial feature stacks of `PixelCNN.forward` (lines 123-127):
rescale the input, then apply the center-masked vertical and horizontal
convolutions. -/
noncomputable def PixelCNNModel.stacks {cin chidden : ℕ} (m : PixelCNNModel cin chidden)
    (H W : ℕ) (x : IntImage cin) : FeatureMap chidden × FeatureMap chidden :=
  (((VerticalStackConvolution cin chidden 3 true 1 m.wV m.bV).forward H W
      (fun c i j => rescalePixel (x c i j))).2,
   ((HorizontalStackConvolution cin chidden 3 true 1 m.wH m.bH).forward H W
      (fun c i j => rescalePixel (x c i j))).2)

/-- The stack pair after the seven gated layers (lines 129-130). -/
noncomputable def PixelCNNModel.trunk {cin chidden : ℕ} (m : PixelCNNModel cin chidden)
    (H W : ℕ) (x : IntImage cin) : FeatureMap chidden × FeatureMap chidden :=
  runLayers (gatedLayerList m) H W (m.stacks H W x).1 (m.stacks H W x).2

/-- Output channel `cls * cin + ch`: the channel of the flat `c_in * 256`-wide
output that the row-major reshape on line 136 sends to class `cls` of image
channel `ch`. -/
def outChannelIndex {cin : ℕ} (cls : Fin 256) (ch : Fin cin) : Fin (cin * 256) :=
  ⟨cls.1 * cin + ch.1, by
    have h1 := cls.2
    have h2 := ch.2
    calc cls.1 * cin + ch.1 < cls.1 * cin + cin := by omega
    _ = (cls.1 + 1) * cin := by ring
    _ ≤ 256 * cin := Nat.mul_le_mul_right cin (by omega)
    _ = cin * 256 := Nat.mul_comm _ _⟩

/-- `PixelCNN.forward` for one image of the batch (lines 116-137): rescale,
initial stacks, gated layers, `F.elu`, the 1×1 output convolution, and the
reshape exposing the 256-class dimension.  The result maps
`(class, channel, row, column)` to the logit. -/
noncomputable def PixelCNNModel.forwardSingle {cin chidden : ℕ} (m : PixelCNNModel cin chidden)
    (H W : ℕ) (x : IntImage cin) : Fin 256 → Fin cin → ℤ → ℤ → ℝ :=
  fun cls ch i j =>
    conv2dApply m.convOut 1 H W (fun c' i' j' => elu ((m.trunk H W x).2 c' i' j'))
      (outChannelIndex cls ch) i j

/-- `F.cross_entropy` for one cell: the negative log-probability that the
softmax of the logit vector assigns to the target class, written as
`log (sum of exponentials) - logit at the target`. -/
noncomputable def crossEntropy (v : Fin 256 → ℝ) (t : Fin 256) : ℝ :=
  Real.log (∑ i, Real.exp (v i)) - v t

/-- A batch of valid input images: every entry is a class index in
`[0, 255]` (this is the precondition under which `F.cross_entropy` accepts
the image as its integer target tensor). -/
def ValidBatch (B C : ℕ) : Type := Fin B → Fin C → ℤ → ℤ → Fin 256

/-- `PixelCNN.calc_likelihood` (lines 139-144): per-cell cross-entropy
between the forward logits and the integer targets, averaged per image over
channel, height and width, converted to bits per dimension by the factor
`np.log2(np.exp(1))`, then averaged over the batch. -/
noncomputable def calc_likelihood {cin chidden : ℕ} (m : PixelCNNModel cin chidden)
    (B H W : ℕ) (x : ValidBatch B cin) : ℝ :=
  (∑ b : Fin B,
      (∑ c : Fin cin, ∑ h : Fin H, ∑ w : Fin W,
          crossEntropy
            (fun cls => m.forwardSingle H W (fun c' i j => (((x b c' i j : ℕ) : ℤ)))
              cls c ((h : ℕ) : ℤ) ((w : ℕ) : ℤ))
            (x b c ((h : ℕ) : ℤ) ((w : ℕ) : ℤ))) /
        ((cin : ℝ) * (H : ℝ) * (W : ℝ)) * Real.logb 2 (Real.exp 1)) /
    (B : ℝ)

/-- A batch of integer images being filled during sampling. -/
def SImage (B C : ℕ) : Type := Fin B → Fin C → ℤ → ℤ → ℤ

/-- The sampling context: the model, the target width, and the explicit
random source standing for `torch.multinomial`, which, given the per-batch
softmax probability vectors and the index of the draw, returns one class
index per batch element. -/
structure SampleCtx (B cin chidden : ℕ) where
  model : PixelCNNModel cin chidden
  W : ℕ
  rng : (Fin B → Fin 256 → ℝ) → ℕ → Fin B → Fin 256

/-- The probability vectors used for the draw at `(h, w, c)` (lines
168-169): forward on the image cropped to rows `[0, h]` inclusive, the
logit vector at `(c, h, w)`, then softmax. -/
noncomputable def sampleProbs {B cin chidden : ℕ} (ctx : SampleCtx B cin chidden)
    (img : SImage B cin) (h w : ℕ) (c : Fin cin) : Fin B → Fin 256 → ℝ :=
  fun b => softmax fun cls =>
    ctx.model.forwardSingle (h + 1) ctx.W (img b) cls c ((h : ℕ) : ℤ) ((w : ℕ) : ℤ)

/-- One iteration of the generation loop body (lines 163-170), acting on the
pair of the image and the number of draws made so far: skip when the value
at `(c, h, w)` differs from `-1` in every batch element, otherwise draw one
class per batch element and write it at `(c, h, w)` for the whole batch. -/
noncomputable def sampleStep {B cin chidden : ℕ} (ctx : SampleCtx B cin chidden)
    (st : SImage B cin × ℕ) (pos : ℕ × ℕ × Fin cin) : SImage B cin × ℕ :=
  if ∀ b : Fin B, st.1 b pos.2.2 ((pos.1 : ℕ) : ℤ) ((pos.2.1 : ℕ) : ℤ) ≠ -1 then st
  else
    (fun b c' i j =>
       if c' = pos.2.2 ∧ i = ((pos.1 : ℕ) : ℤ) ∧ j = ((pos.2.1 : ℕ) : ℤ) then
         ((ctx.rng (sampleProbs ctx st.1 pos.1 pos.2.1 pos.2.2) st.2 b : ℕ) : ℤ)
       else st.1 b c' i j,
     st.2 + 1)

/-- The cell positions visited by the generation loop, in loop order: outer
loop over rows, middle loop over columns, inner loop over channels
(lines 160-162). -/
def samplePositions (H W C : ℕ) : List (ℕ × ℕ × Fin C) :=
  (List.range H).flatMap fun h =>
    (List.range W).flatMap fun w =>
      (List.finRange C).map fun c => (h, w, c)

/-- `PixelCNN.sample` (lines 146-171) with an explicit starting image: fold
the loop body over all cell positions in loop order, starting with zero
draws made, and return the final image. -/
noncomputable def sample {B cin chidden : ℕ} (ctx : SampleCtx B cin chidden) (H : ℕ)
    (img0 : SImage B cin) : SImage B cin :=
  ((samplePositions H ctx.W cin).foldl (sampleStep ctx) (img0, 0)).1

/-- The default starting image `torch.zeros(img_shape, ...) - 1` (line 158),
used when no starting image is given. -/
def defaultSeed (B C : ℕ) : SImage B C := fun _ _ _ _ => -1

/-- Shape bookkeeping of `MaskedConvolution.__init__` (lines 20-23): from
the dimensions of the mask argument and the dilation, the kernel size handed
to `nn.Conv2d` is exactly the mask shape
(`kernel_size = (mask.shape[0], mask.shape[1])`), and the padding per
dimension is `dilation * (kernel_size - 1) // 2`. -/
structure MaskedConvShape where
  kernelH : ℕ
  kernelW : ℕ
  padH : ℕ
  padW : ℕ

/-- The shapes computed by `MaskedConvolution.__init__` for a mask of
dimensions `maskH × maskW` and dilation `d`. -/
def maskedConvShapeOf (maskH maskW d : ℕ) : MaskedConvShape :=
  { kernelH := maskH, kernelW := maskW, padH := padOf d maskH, padW := padOf d maskW }

/-- The all-zero convolution parameters, used for concrete witnesses. -/
noncomputable def zeroConvParams (cin cout kh kw : ℕ) : Conv2dParams cin cout kh kw :=
  { weight := fun _ _ _ _ => 0, bias := fun _ => 0 }

/-- A gated layer with all parameters zero, used for concrete witnesses. -/
noncomputable def zeroGated (c : ℕ) : GatedMaskedConv c :=
  { wVert := fun _ _ _ _ => 0, bVert := fun _ => 0,
    wHoriz := fun _ _ _ _ => 0, bHoriz := fun _ => 0,
    vertToHoriz := zeroConvParams (2 * c) (2 * c) 1 1,
    horiz1x1 := zeroConvParams c c 1 1 }

/-- A PixelCNN model with all parameters zero, used for concrete witnesses. -/
noncomputable def zeroModel (cin chidden : ℕ) : PixelCNNModel cin chidden :=
  { wV := fun _ _ _ _ => 0, bV := fun _ => 0, wH := fun _ _ _ _ => 0, bH := fun _ => 0,
    layer0 := zeroGated chidden, layer1 := zeroGated chidden, layer2 := zeroGated chidden,
    layer3 := zeroGated chidden, layer4 := zeroGated chidden, layer5 := zeroGated chidden,
    layer6 := zeroGated chidden, convOut := zeroConvParams chidden (cin * 256) 1 1 }

lemma conv2dApply_zero (cin cout kh kw d H W : ℕ) (x : FeatureMap cin) (oc : Fin cout)
    (i j : ℤ) : conv2dApply (zeroConvParams cin cout kh kw) d H W x oc i j = 0 := by
  simp [conv2dApply, zeroConvParams]

lemma forwardSingle_zeroModel (cin chidden H W : ℕ) (x : IntImage cin) (cls : Fin 256)
    (ch : Fin cin) (i j : ℤ) :
    (zeroModel cin chidden).forwardSingle H W x cls ch i j = 0 := by
  have h : (zeroModel cin chidden).convOut = zeroConvParams chidden (cin * 256) 1 1 := rfl
  simp only [PixelCNNModel.forwardSingle, h, conv2dApply_zero]

/-- Claim C4: for every odd kernel extent `k` in `{3, 5, 7}`, the vertical
mask built with the center masked has exactly `(k / 2 + 1) * k` zero entries
and without the center masked `(k / 2) * k` zero entries; the horizontal
mask built with the center masked has exactly `k / 2 + 1` zero entries and
without the center masked `k / 2` zero entries. -/
theorem claim_C4_mask_zero_counts :
    ((Finset.univ.filter fun p : Fin 3 × Fin 3 => verticalMask 3 true p.1 p.2 = 0).card
        = (3 / 2 + 1) * 3) ∧
    ((Finset.univ.filter fun p : Fin 3 × Fin 3 => verticalMask 3 false p.1 p.2 = 0).card
        = 3 / 2 * 3) ∧
    ((Finset.univ.filter fun p : Fin 1 × Fin 3 => horizontalMask 3 true p.1 p.2 = 0).card
        = 3 / 2 + 1) ∧
    ((Finset.univ.filter fun p : Fin 1 × Fin 3 => horizontalMask 3 false p.1 p.2 = 0).card
        = 3 / 2) ∧
    ((Finset.univ.filter fun p : Fin 5 × Fin 5 => verticalMask 5 true p.1 p.2 = 0).card
        = (5 / 2 + 1) * 5) ∧
    ((Finset.univ.filter fun p : Fin 5 × Fin 5 => verticalMask 5 false p.1 p.2 = 0).card
        = 5 / 2 * 5) ∧
    ((Finset.univ.filter fun p : Fin 1 × Fin 5 => horizontalMask 5 true p.1 p.2 = 0).card
        = 5 / 2 + 1) ∧
    ((Finset.univ.filter fun p : Fin 1 × Fin 5 => horizontalMask 5 false p.1 p.2 = 0).card
        = 5 / 2) ∧
    ((Finset.univ.filter fun p : Fin 7 × Fin 7 => verticalMask 7 true p.1 p.2 = 0).card
        = (7 / 2 + 1) * 7) ∧
    ((Finset.univ.filter fun p : Fin 7 × Fin 7 => verticalMask 7 false p.1 p.2 = 0).card
        = 7 / 2 * 7) ∧
    ((Finset.univ.filter fun p : Fin 1 × Fin 7 => horizontalMask 7 true p.1 p.2 = 0).card
        = 7 / 2 + 1) ∧
    ((Finset.univ.filter fun p : Fin 1 × Fin 7 => horizontalMask 7 false p.1 p.2 = 0).card
        = 7 / 2) := by
  decide

/-- Claim C9: in `MaskedConvolution.__init__` the kernel dimensions handed to
the convolution are defined to be the mask dimensions, so in every
construction the kernel dimensions equal the mask dimensions; a construction
or application in which they differ is therefore unrepresentable, and the
claimed `ShapeMismatch` failure condition can never arise. -/
theorem claim_C9_kernel_dims_equal_mask_dims :
    ∀ maskH maskW d : ℕ,
      (maskedConvShapeOf maskH maskW d).kernelH = maskH ∧
      (maskedConvShapeOf maskH maskW d).kernelW = maskW ∧
      (maskedConvShapeOf maskH maskW d).padH = d * (maskH - 1) / 2 ∧
      (maskedConvShapeOf maskH maskW d).padW = d * (maskW - 1) / 2 := by
  intro maskH maskW d
  exact ⟨rfl, rfl, rfl, rfl⟩

/-- Applying the in-place masking twice is the same as applying it once when
the mask is 0/1-valued. -/
lemma maskWeights_idem {cin cout kh kw : ℕ} (m : MaskedConvolution cin cout kh kw)
    (hm : ∀ a b, m.mask a b = 0 ∨ m.mask a b = 1) :
    m.maskWeights.maskWeights = m.maskWeights := by
  obtain ⟨⟨w, bias⟩, mask, d⟩ := m
  simp only [MaskedConvolution.maskWeights]
  congr 1
  congr 1
  funext oc ic a b
  rcases hm a b with h | h <;> simp_all

/-- A masked convolution built by `HorizontalStackConvolution.__init__` with
kernel extent 3, masked center, and all stored weights 1: a concrete
counterexample state for the non-destructiveness claim. -/
noncomputable def hscCounterexample : MaskedConvolution 1 1 1 3 :=
  HorizontalStackConvolution 1 1 3 true 1 (fun _ _ _ _ => 1) (fun _ => 0)

/-- Counterexample to claim C2 as stated: before the first application the
stored weight at the masked center position is 1, and after one application
of `forward` it has been overwritten to 0 — the stored weight tensor does
not survive an application unchanged. -/
theorem claim_C2_counterexample :
    hscCounterexample.conv.weight 0 0 0 1 = 1 ∧
    ((hscCounterexample.forward 1 3 fun _ _ _ => 0).1).conv.weight 0 0 0 1 = 0 := by
  constructor
  · rfl
  · show (1 : ℝ) * ((horizontalMask 3 true 0 1 : ℚ) : ℝ) = 0
    norm_num [horizontalMask]

/-- Claim C2 (amended): on every application, `MaskedConvolution.forward`
computes an effective weight equal to the element-wise product of the stored
weight and the mask and runs the convolution with it, but it also overwrites
the stored weight with that product (the in-place `*=` of line 29); the
stored bias, mask and dilation are left unchanged. -/
theorem claim_C2_masking_overwrites_weight {cin cout kh kw : ℕ}
    (m : MaskedConvolution cin cout kh kw) (H W : ℕ) (x : FeatureMap cin) :
    ((m.forward H W x).2
        = conv2dApply
            { weight := fun oc ic a b => m.conv.weight oc ic a b * ((m.mask a b : ℚ) : ℝ),
              bias := m.conv.bias } m.dilation H W x) ∧
    (∀ oc ic a b, (m.forward H W x).1.conv.weight oc ic a b
        = m.conv.weight oc ic a b * ((m.mask a b : ℚ) : ℝ)) ∧
    ((m.forward H W x).1.conv.bias = m.conv.bias) ∧
    ((m.forward H W x).1.mask = m.mask) ∧
    ((m.forward H W x).1.dilation = m.dilation) :=
  ⟨rfl, fun _ _ _ _ => rfl, rfl, rfl, rfl⟩

/-- Claim C10: for a 0/1 mask, masking twice equals masking once; hence two
consecutive applications of `MaskedConvolution.forward` on the same input
with no external weight update in between return equal outputs, and the
second application (so, inductively, every application after the first)
leaves the stored layer state unchanged. -/
theorem claim_C10_masking_idempotence {cin cout kh kw : ℕ}
    (m : MaskedConvolution cin cout kh kw) (H W : ℕ) (x : FeatureMap cin)
    (hm : ∀ a b, m.mask a b = 0 ∨ m.mask a b = 1) :
    (∀ oc ic a b,
        m.conv.weight oc ic a b * ((m.mask a b : ℚ) : ℝ) * ((m.mask a b : ℚ) : ℝ)
          = m.conv.weight oc ic a b * ((m.mask a b : ℚ) : ℝ)) ∧
    (((m.forward H W x).1.forward H W x).2 = (m.forward H W x).2) ∧
    (((m.forward H W x).1.forward H W x).1 = (m.forward H W x).1) := by
  have hidem : m.maskWeights.maskWeights = m.maskWeights := maskWeights_idem m hm
  refine ⟨?_, ?_, ?_⟩
  · intro oc ic a b
    rcases hm a b with h | h <;> simp [h]
  · show conv2dApply m.maskWeights.maskWeights.conv m.maskWeights.dilation H W x
        = conv2dApply m.maskWeights.conv m.dilation H W x
    rw [hidem]
    rfl
  · show m.maskWeights.maskWeights = m.maskWeights
    exact hidem

/-- A masked convolution with an all-ones (hence 0/1-valued) mask, used as
the concrete input of the idempotence witness. -/
noncomputable def mcOnesMask : MaskedConvolution 1 1 1 1 :=
  { conv := { weight := fun _ _ _ _ => 2, bias := fun _ => 0 },
    mask := fun _ _ => 1, dilation := 1 }

/-- Witness for claim C10 at a concrete layer state: the mask is 0/1-valued,
and the second application leaves the state produced by the first unchanged. -/
theorem claim_C10_witness :
    (∀ a b, mcOnesMask.mask a b = 0 ∨ mcOnesMask.mask a b = 1) ∧
    (((mcOnesMask.forward 1 1 fun _ _ _ => 0).1.forward 1 1 fun _ _ _ => 0).1
      = (mcOnesMask.forward 1 1 fun _ _ _ => 0).1) :=
  ⟨fun _ _ => Or.inr rfl,
   (claim_C10_masking_idempotence mcOnesMask 1 1 (fun _ _ _ => 0)
      fun _ _ => Or.inr rfl).2.2⟩

lemma sumExp_pos (v : Fin 256 → ℝ) : 0 < ∑ i, Real.exp (v i) :=
  Finset.sum_pos (fun i _ => Real.exp_pos (v i)) Finset.univ_nonempty

/-- The embedded per-cell cross-entropy is the negative logarithm of the
softmax probability of the target class. -/
lemma crossEntropy_eq_neg_log_softmax (v : Fin 256 → ℝ) (t : Fin 256) :
    crossEntropy v t = -Real.log (softmax v t) := by
  unfold crossEntropy softmax
  rw [Real.log_div (Real.exp_ne_zero _) (ne_of_gt (sumExp_pos v)), Real.log_exp]
  ring

lemma crossEntropy_nonneg (v : Fin 256 → ℝ) (t : Fin 256) : 0 ≤ crossEntropy v t := by
  unfold crossEntropy
  have h1 : Real.exp (v t) ≤ ∑ i, Real.exp (v i) :=
    Finset.single_le_sum (fun i _ => le_of_lt (Real.exp_pos (v i))) (Finset.mem_univ t)
  have h2 : v t ≤ Real.log (∑ i, Real.exp (v i)) := by
    have := Real.log_le_log (Real.exp_pos (v t)) h1
    rwa [Real.log_exp] at this
  linarith

lemma logb_two_exp_one_nonneg : 0 ≤ Real.logb 2 (Real.exp 1) :=
  Real.logb_nonneg (by norm_num) (by
    have := Real.add_one_le_exp (1 : ℝ)
    linarith)

/-- Claim C7: `calc_likelihood` equals the batch mean over images of the
per-image mean over channel, height and width of the per-cell cross-entropy
(the negative log of the softmax probability of the target) between the
`forward` logits and the integer targets, multiplied by `log2(e)`; and this
value is nonnegative for every valid input batch. -/
theorem claim_C7_likelihood {cin chidden : ℕ} (m : PixelCNNModel cin chidden)
    (B H W : ℕ) (x : ValidBatch B cin) :
    (calc_likelihood m B H W x
      = (∑ b : Fin B,
          (∑ c : Fin cin, ∑ h : Fin H, ∑ w : Fin W,
              -Real.log (softmax
                (fun cls => m.forwardSingle H W (fun c' i j => ((x b c' i j : ℕ) : ℤ))
                  cls c ((h : ℕ) : ℤ) ((w : ℕ) : ℤ))
                (x b c ((h : ℕ) : ℤ) ((w : ℕ) : ℤ)))) /
            ((cin : ℝ) * (H : ℝ) * (W : ℝ)) * Real.logb 2 (Real.exp 1)) / (B : ℝ)) ∧
    0 ≤ calc_likelihood m B H W x := by
  constructor
  · unfold calc_likelihood
    simp only [crossEntropy_eq_neg_log_softmax]
  · unfold calc_likelihood
    apply div_nonneg _ (by positivity)
    apply Finset.sum_nonneg
    intro b _
    apply mul_nonneg _ logb_two_exp_one_nonneg
    apply div_nonneg _ (by positivity)
    apply Finset.sum_nonneg
    intro c _
    apply Finset.sum_nonneg
    intro h _
    apply Finset.sum_nonneg
    intro w _
    exact crossEntropy_nonneg _ _

/-- Strict raster-then-channel order on cell positions
`(row, column, channel)`. -/
def posLT {C : ℕ} (p q : ℕ × ℕ × Fin C) : Prop :=
  p.1 < q.1 ∨ (p.1 = q.1 ∧ (p.2.1 < q.2.1 ∨ (p.2.1 = q.2.1 ∧ p.2.2 < q.2.2)))

lemma pairwise_flatMap_of {α β : Type} (R : β → β → Prop) (l : List α) (f : α → List β)
    (h1 : ∀ a ∈ l, (f a).Pairwise R)
    (h2 : l.Pairwise fun a a' => ∀ b ∈ f a, ∀ b' ∈ f a', R b b') :
    (l.flatMap f).Pairwise R := by
  induction l with
  | nil => simp
  | cons a t ih =>
    rw [List.flatMap_cons, List.pairwise_append]
    refine ⟨h1 a (List.mem_cons_self a t),
      ih (fun x hx => h1 x (List.mem_cons_of_mem a hx)) (List.Pairwise.of_cons h2), ?_⟩
    intro b hb b' hb'
    rw [List.mem_flatMap] at hb'
    obtain ⟨a', ha', hb'2⟩ := hb'
    exact (List.pairwise_cons.mp h2).1 a' ha' b hb b' hb'2

lemma samplePositions_pairwise (H W C : ℕ) :
    (samplePositions H W C).Pairwise posLT := by
  unfold samplePositions
  apply pairwise_flatMap_of
  · intro h _
    apply pairwise_flatMap_of
    · intro w _
      rw [List.pairwise_map]
      refine (List.pairwise_lt_finRange C).imp ?_
      intro c c' hcc
      exact Or.inr ⟨rfl, Or.inr ⟨rfl, hcc⟩⟩
    · refine (List.pairwise_lt_range W).imp ?_
      intro w w' hww b hb b' hb'
      rw [List.mem_map] at hb hb'
      obtain ⟨c, _, rfl⟩ := hb
      obtain ⟨c', _, rfl⟩ := hb'
      exact Or.inr ⟨rfl, Or.inl hww⟩
  · refine (List.pairwise_lt_range H).imp ?_
    intro h h' hhh b hb b' hb'
    rw [List.mem_flatMap] at hb hb'
    obtain ⟨w, _, hb⟩ := hb
    obtain ⟨w', _, hb'⟩ := hb'
    rw [List.mem_map] at hb hb'
    obtain ⟨c, _, rfl⟩ := hb
    obtain ⟨c', _, rfl⟩ := hb'
    exact Or.inl hhh

lemma samplePositions_mem (H W C : ℕ) (p : ℕ × ℕ × Fin C) :
    p ∈ samplePositions H W C ↔ p.1 < H ∧ p.2.1 < W := by
  obtain ⟨h, w, c⟩ := p
  unfold samplePositions
  simp only [List.mem_flatMap, List.mem_range, List.mem_map, List.mem_finRange, true_and]
  constructor
  · rintro ⟨h', hh', w', hw', c', heq⟩
    obtain ⟨rfl, rfl, rfl⟩ := Prod.mk.injEq .. ▸ (by
      injection heq with e1 e2
      injection e2 with e3 e4
      exact ⟨e1, e3, e4⟩ : h' = h ∧ w' = w ∧ c' = c)
    exact ⟨hh', hw'⟩
  · rintro ⟨hh, hw⟩
    exact ⟨h, hh, w, hw, c, rfl⟩

/-- Claim C5: the sampling loop visits cell positions in raster-then-channel
order (the visit list is strictly sorted in that order, and contains a
position exactly when it is inside the requested grid, the channel being
range-complete by type); one loop body skips, leaving image and draw counter
unchanged, exactly when every batch element already holds a value different
from `-1` at that position; otherwise a value is drawn and written at that
position for every batch element, every other cell is left unchanged, and
the draw counter advances. -/
theorem claim_C5_sample_loop_order {B cin chidden : ℕ} (ctx : SampleCtx B cin chidden)
    (H : ℕ) (img : SImage B cin) (n : ℕ) (h w : ℕ) (c : Fin cin) :
    (samplePositions H ctx.W cin).Pairwise posLT ∧
    (∀ p : ℕ × ℕ × Fin cin, p ∈ samplePositions H ctx.W cin ↔ p.1 < H ∧ p.2.1 < ctx.W) ∧
    ((∀ b : Fin B, img b c (h : ℤ) (w : ℤ) ≠ -1) →
      sampleStep ctx (img, n) (h, w, c) = (img, n)) ∧
    (¬ (∀ b : Fin B, img b c (h : ℤ) (w : ℤ) ≠ -1) →
      (∀ b : Fin B,
        (sampleStep ctx (img, n) (h, w, c)).1 b c (h : ℤ) (w : ℤ)
          = ((ctx.rng (sampleProbs ctx img h w c) n b : ℕ) : ℤ)) ∧
      (∀ (b : Fin B) (c' : Fin cin) (i j : ℤ), ¬ (c' = c ∧ i = (h : ℤ) ∧ j = (w : ℤ)) →
        (sampleStep ctx (img, n) (h, w, c)).1 b c' i j = img b c' i j) ∧
      (sampleStep ctx (img, n) (h, w, c)).2 = n + 1) := by
  refine ⟨samplePositions_pairwise H ctx.W cin, samplePositions_mem H ctx.W cin, ?_, ?_⟩
  · intro hall
    unfold sampleStep
    rw [if_pos hall]
  · intro hnot
    unfold sampleStep
    rw [if_neg hnot]
    refine ⟨?_, ?_, rfl⟩
    · intro b
      simp
    · intro b c' i j hne
      simp only
      rw [if_neg hne]

/-- A concrete sampling context over the all-zero model on a width-1 grid,
with a random source that always draws class 0; used by witnesses. -/
noncomputable def ctxZero : SampleCtx 1 1 1 :=
  { model := zeroModel 1 1, W := 1, rng := fun _ _ _ => 0 }

/-- Witness for claim C5 at concrete inputs: a cell already holding 5 in
every batch element is skipped with the state unchanged, and a cell holding
the `-1` sentinel advances the draw counter. -/
theorem claim_C5_witness :
    (sampleStep ctxZero ((fun _ _ _ _ => 5 : SImage 1 1), 0) (0, 0, 0)
      = ((fun _ _ _ _ => 5 : SImage 1 1), 0)) ∧
    ((sampleStep ctxZero ((fun _ _ _ _ => -1 : SImage 1 1), 0) (0, 0, 0)).2 = 0 + 1) :=
  ⟨(claim_C5_sample_loop_order ctxZero 1 (fun _ _ _ _ => 5) 0 0 0 0).2.2.1
      (fun _ => by decide),
   ((claim_C5_sample_loop_order ctxZero 1 (fun _ _ _ _ => -1) 0 0 0 0).2.2.2
      (fun hall => hall 0 rfl)).2.2⟩

/-- One loop body never changes the value of a cell at which every batch
element already holds a value different from `-1`. -/
lemma sampleStep_preserves_filled {B cin chidden : ℕ} (ctx : SampleCtx B cin chidden)
    (st : SImage B cin × ℕ) (pos : ℕ × ℕ × Fin cin) (c : Fin cin) (i j : ℤ)
    (hfill : ∀ b, st.1 b c i j ≠ -1) (b : Fin B) :
    (sampleStep ctx st pos).1 b c i j = st.1 b c i j := by
  unfold sampleStep
  by_cases hg : ∀ b' : Fin B, st.1 b' pos.2.2 ((pos.1 : ℕ) : ℤ) ((pos.2.1 : ℕ) : ℤ) ≠ -1
  · rw [if_pos hg]
  · rw [if_neg hg]
    simp only
    by_cases he : c = pos.2.2 ∧ i = ((pos.1 : ℕ) : ℤ) ∧ j = ((pos.2.1 : ℕ) : ℤ)
    · exfalso
      obtain ⟨h1, h2, h3⟩ := he
      subst h1; subst h2; subst h3
      exact hg hfill
    · rw [if_neg he]

/-- Once every batch element holds a non-`-1` value at a cell, the remaining
loop iterations leave that cell unchanged in every batch element. -/
lemma sampleLoop_preserves_filled {B cin chidden : ℕ} (ctx : SampleCtx B cin chidden)
    (ps : List (ℕ × ℕ × Fin cin)) (c : Fin cin) (i j : ℤ) :
    ∀ st : SImage B cin × ℕ, (∀ b, st.1 b c i j ≠ -1) →
      ∀ b, (ps.foldl (sampleStep ctx) st).1 b c i j = st.1 b c i j := by
  induction ps with
  | nil => intro st _ b; rfl
  | cons p t ih =>
    intro st hfill b
    rw [List.foldl_cons]
    have hstep : ∀ b', (sampleStep ctx st p).1 b' c i j = st.1 b' c i j :=
      fun b' => sampleStep_preserves_filled ctx st p c i j hfill b'
    rw [ih (sampleStep ctx st p) (fun b' => by rw [hstep b']; exact hfill b') b, hstep b]

/-- A value is admissible during sampling when it is the `-1` sentinel or an
intensity in `[0, 255]`. -/
def valueOk (v : ℤ) : Prop := v = -1 ∨ (0 ≤ v ∧ v ≤ 255)

/-- Admissibility of every in-grid entry is preserved by one loop body,
since a written value is a class index below 256. -/
lemma sampleStep_valueOk {B cin chidden : ℕ} (ctx : SampleCtx B cin chidden) (H : ℕ)
    (st : SImage B cin × ℕ) (pos : ℕ × ℕ × Fin cin)
    (hok : ∀ b c (i j : ℤ), 0 ≤ i → i < (H : ℤ) → 0 ≤ j → j < (ctx.W : ℤ) →
      valueOk (st.1 b c i j)) :
    ∀ b c (i j : ℤ), 0 ≤ i → i < (H : ℤ) → 0 ≤ j → j < (ctx.W : ℤ) →
      valueOk ((sampleStep ctx st pos).1 b c i j) := by
  intro b c i j h1 h2 h3 h4
  unfold sampleStep
  by_cases hg : ∀ b' : Fin B, st.1 b' pos.2.2 ((pos.1 : ℕ) : ℤ) ((pos.2.1 : ℕ) : ℤ) ≠ -1
  · rw [if_pos hg]
    exact hok b c i j h1 h2 h3 h4
  · rw [if_neg hg]
    simp only
    by_cases he : c = pos.2.2 ∧ i = ((pos.1 : ℕ) : ℤ) ∧ j = ((pos.2.1 : ℕ) : ℤ)
    · rw [if_pos he]
      right
      have hr := (ctx.rng (sampleProbs ctx st.1 pos.1 pos.2.1 pos.2.2) st.2 b).isLt
      omega
    · rw [if_neg he]
      exact hok b c i j h1 h2 h3 h4

/-- Admissibility of every in-grid entry is preserved by the whole loop. -/
lemma sampleLoop_valueOk {B cin chidden : ℕ} (ctx : SampleCtx B cin chidden) (H : ℕ)
    (ps : List (ℕ × ℕ × Fin cin)) :
    ∀ st : SImage B cin × ℕ,
      (∀ b c (i j : ℤ), 0 ≤ i → i < (H : ℤ) → 0 ≤ j → j < (ctx.W : ℤ) →
        valueOk (st.1 b c i j)) →
      ∀ b c (i j : ℤ), 0 ≤ i → i < (H : ℤ) → 0 ≤ j → j < (ctx.W : ℤ) →
        valueOk ((ps.foldl (sampleStep ctx) st).1 b c i j) := by
  induction ps with
  | nil => intro st hok; exact hok
  | cons p t ih =>
    intro st hok
    rw [List.foldl_cons]
    exact ih (sampleStep ctx st p) (sampleStep_valueOk ctx H st p hok)

/-- After the loop body at a position whose current values are admissible,
every batch element holds an intensity in `[0, 255]` there. -/
lemma sampleStep_fills {B cin chidden : ℕ} (ctx : SampleCtx B cin chidden)
    (st : SImage B cin × ℕ) (h w : ℕ) (c : Fin cin)
    (hok : ∀ b, valueOk (st.1 b c (h : ℤ) (w : ℤ))) :
    ∀ b, 0 ≤ (sampleStep ctx st (h, w, c)).1 b c (h : ℤ) (w : ℤ) ∧
      (sampleStep ctx st (h, w, c)).1 b c (h : ℤ) (w : ℤ) ≤ 255 := by
  intro b
  by_cases hg : ∀ b' : Fin B, st.1 b' c (h : ℤ) (w : ℤ) ≠ -1
  · have heq : sampleStep ctx st (h, w, c) = st := by
      unfold sampleStep
      exact if_pos hg
    rw [heq]
    rcases hok b with hm | hrange
    · exact absurd hm (hg b)
    · exact hrange
  · have heq : (sampleStep ctx st (h, w, c)).1 b c (h : ℤ) (w : ℤ)
        = ((ctx.rng (sampleProbs ctx st.1 h w c) st.2 b : ℕ) : ℤ) := by
      unfold sampleStep
      rw [if_neg hg]
      simp
    rw [heq]
    have hr := (ctx.rng (sampleProbs ctx st.1 h w c) st.2 b).isLt
    omega

/-- Claim C6: for every context, height and seed image whose in-grid entries
all lie in `{-1} ∪ [0, 255]` (the default all-`-1` seed included), every
in-grid entry of the image returned by `sample` lies in `[0, 255]`; in
particular no `-1` sentinel remains, and the result has the requested shape
by construction. -/
theorem claim_C6_sample_output_range {B cin chidden : ℕ} (ctx : SampleCtx B cin chidden)
    (H : ℕ) (img0 : SImage B cin)
    (hseed : ∀ b c (i j : ℤ), 0 ≤ i → i < (H : ℤ) → 0 ≤ j → j < (ctx.W : ℤ) →
      valueOk (img0 b c i j)) :
    ∀ b c (i j : ℤ), 0 ≤ i → i < (H : ℤ) → 0 ≤ j → j < (ctx.W : ℤ) →
      0 ≤ sample ctx H img0 b c i j ∧ sample ctx H img0 b c i j ≤ 255 := by
  intro b c i j h1 h2 h3 h4
  have hp : (i.toNat, j.toNat, c) ∈ samplePositions H ctx.W cin := by
    rw [samplePositions_mem]
    exact ⟨(by omega : i.toNat < H), (by omega : j.toNat < ctx.W)⟩
  obtain ⟨l1, l2, hsplit⟩ := List.append_of_mem hp
  unfold sample
  rw [hsplit, List.foldl_append, List.foldl_cons]
  have hcoei : ((i.toNat : ℕ) : ℤ) = i := Int.toNat_of_nonneg h1
  have hcoej : ((j.toNat : ℕ) : ℤ) = j := Int.toNat_of_nonneg h3
  have hok1 : ∀ b' c' (i' j' : ℤ), 0 ≤ i' → i' < (H : ℤ) → 0 ≤ j' → j' < (ctx.W : ℤ) →
      valueOk ((l1.foldl (sampleStep ctx) (img0, 0)).1 b' c' i' j') :=
    sampleLoop_valueOk ctx H l1 (img0, 0) hseed
  have hfills := sampleStep_fills ctx (l1.foldl (sampleStep ctx) (img0, 0)) i.toNat j.toNat c
    (fun b' => by rw [hcoei, hcoej]; exact hok1 b' c i j h1 h2 h3 h4)
  have hbounds : ∀ b', 0 ≤ (sampleStep ctx (l1.foldl (sampleStep ctx) (img0, 0))
        (i.toNat, j.toNat, c)).1 b' c i j ∧
      (sampleStep ctx (l1.foldl (sampleStep ctx) (img0, 0)) (i.toNat, j.toNat, c)).1 b' c i j
        ≤ 255 := by
    intro b'
    have hx := hfills b'
    rw [hcoei, hcoej] at hx
    exact hx
  have hpass := sampleLoop_preserves_filled ctx l2 c i j
    (sampleStep ctx (l1.foldl (sampleStep ctx) (img0, 0)) (i.toNat, j.toNat, c))
    (fun b' => by have := hbounds b'; omega) b
  rw [hpass]
  exact hbounds b

/-- Witness for claim C6: sampling a 1×1×1×1 image from the all-unfilled
default seed with the zero model yields a value in `[0, 255]`. -/
theorem claim_C6_witness :
    0 ≤ sample ctxZero 1 (defaultSeed 1 1) 0 0 0 0 ∧
    sample ctxZero 1 (defaultSeed 1 1) 0 0 0 0 ≤ 255 :=
  claim_C6_sample_output_range ctxZero 1 (defaultSeed 1 1)
    (fun _ _ _ _ _ _ _ _ => Or.inl rfl) 0 0 0 0 (by decide) (by decide) (by decide) (by decide)

/-- Counterexample to claim C8 as stated: a `forward` call on an input
holding the out-of-range intensity 300 does not fail — the offending value
is silently rescaled by the same affine map as valid intensities
(`300 / 255 * 2 - 1 = 23 / 17`), and the call returns ordinary logits
(all zero under the all-zero model). -/
theorem claim_C8_counterexample :
    rescalePixel 300 = 23 / 17 ∧
    (zeroModel 1 1).forwardSingle 1 1 (fun _ _ _ => 300) 0 0 0 0 = 0 := by
  constructor
  · unfold rescalePixel
    norm_num
  · exact forwardSingle_zeroModel 1 1 1 1 (fun _ _ _ => 300) 0 0 0 0

/-- Claim C8 (amended): neither `forward` nor `sample` validates pixel
values.  `forward` rescales any integer intensity, in range or not, by the
same affine map and proceeds; `sample` treats any value different from `-1`
— in range or not — as pre-filled, and if every batch element holds such a
value at a cell, that value is passed through to the output unchanged. -/
theorem claim_C8_no_validation {B cin chidden : ℕ} (ctx : SampleCtx B cin chidden)
    (H : ℕ) (img0 : SImage B cin) (c : Fin cin) (i j : ℤ)
    (hfill : ∀ b, img0 b c i j ≠ -1) :
    ∀ b, sample ctx H img0 b c i j = img0 b c i j :=
  fun b => sampleLoop_preserves_filled ctx (samplePositions H ctx.W cin) c i j (img0, 0)
    hfill b

/-- Witness for the amended claim C8: a seed whose every entry is the
out-of-range value 300 is accepted without failure and the value is
returned unchanged by `sample`. -/
theorem claim_C8_witness :
    ((300 : ℤ) ≠ -1) ∧ sample ctxZero 1 (fun _ _ _ _ => 300) 0 0 0 0 = 300 :=
  ⟨by decide,
   claim_C8_no_validation ctxZero 1 (fun _ _ _ _ => 300) 0 0 0
     (fun _ => (by decide : (300 : ℤ) ≠ (-1 : ℤ))) 0⟩

/-- The output component of `MaskedConvolution.forward` is the convolution
with the masked weight. -/
lemma maskedConv_forward_value {cin cout kh kw : ℕ} (m : MaskedConvolution cin cout kh kw)
    (H W : ℕ) (x : FeatureMap cin) :
    (m.forward H W x).2 = conv2dApply m.maskWeights.conv m.dilation H W x := rfl

/-- Padded reads of two maps agree at a point when the raw maps agree there
and the height bounds classify the row identically. -/
lemma boundedGet_congr {H1 H2 W : ℕ} {f f' : ℤ → ℤ → ℝ} {i j : ℤ}
    (hrow : (i < (H1 : ℤ)) ↔ (i < (H2 : ℤ)))
    (hval : 0 ≤ i → i < (H1 : ℤ) → 0 ≤ j → j < (W : ℤ) → f i j = f' i j) :
    boundedGet H1 W f i j = boundedGet H2 W f' i j := by
  unfold boundedGet
  by_cases h : 0 ≤ i ∧ i < (H1 : ℤ) ∧ 0 ≤ j ∧ j < (W : ℤ)
  · rw [if_pos h, if_pos ⟨h.1, hrow.mp h.2.1, h.2.2⟩]
    exact hval h.1 h.2.1 h.2.2.1 h.2.2.2
  · rw [if_neg h, if_neg fun hc => h ⟨hc.1, hrow.mpr hc.2.1, hc.2.2⟩]

/-- If two runs of the same convolution read equal padded inputs at every
kernel tap carrying a nonzero weight, the outputs at `(i, j)` coincide. -/
lemma conv2dApply_congr {cin cout kh kw : ℕ} (p : Conv2dParams cin cout kh kw)
    (d H1 W1 H2 W2 : ℕ) (x x' : FeatureMap cin) (i j : ℤ)
    (hread : ∀ (ic : Fin cin) (a : Fin kh) (b : Fin kw),
      (∃ oc, p.weight oc ic a b ≠ 0) →
      boundedGet H1 W1 (x ic) (i + (d : ℤ) * ((a : ℕ) : ℤ) - ((padOf d kh : ℕ) : ℤ))
          (j + (d : ℤ) * ((b : ℕ) : ℤ) - ((padOf d kw : ℕ) : ℤ))
        = boundedGet H2 W2 (x' ic) (i + (d : ℤ) * ((a : ℕ) : ℤ) - ((padOf d kh : ℕ) : ℤ))
          (j + (d : ℤ) * ((b : ℕ) : ℤ) - ((padOf d kw : ℕ) : ℤ))) :
    ∀ oc, conv2dApply p d H1 W1 x oc i j = conv2dApply p d H2 W2 x' oc i j := by
  intro oc
  unfold conv2dApply
  congr 1
  apply Finset.sum_congr rfl
  intro ic _
  apply Finset.sum_congr rfl
  intro a _
  apply Finset.sum_congr rfl
  intro b _
  by_cases hw : p.weight oc ic a b = 0
  · rw [hw, zero_mul, zero_mul]
  · rw [hread ic a b ⟨oc, hw⟩]

/-- For odd kernel extent, the padding swallows a dilated step from the
center row: `d * (k / 2) ≤ padOf d k`. -/
lemma padOf_ge_center (d k : ℕ) (hk : k % 2 = 1) : d * (k / 2) ≤ padOf d k := by
  unfold padOf
  have h1 : k / 2 = (k - 1) / 2 := by omega
  rw [h1]
  have h2 : (k - 1) / 2 * 2 ≤ k - 1 := Nat.div_mul_le_self _ _
  have h3 : d * ((k - 1) / 2) * 2 ≤ d * (k - 1) := by
    calc d * ((k - 1) / 2) * 2 = d * ((k - 1) / 2 * 2) := by ring
    _ ≤ d * (k - 1) := Nat.mul_le_mul_left d h2
  exact (Nat.le_div_iff_mul_le (by norm_num)).mpr h3

/-- A tap of the vertical mask with a nonzero entry lies in a row at most
the center row, strictly above it when the center is masked. -/
lemma verticalMask_live (k : ℕ) (mc : Bool) (a b : Fin k)
    (h : verticalMask k mc a b ≠ 0) :
    (a : ℕ) ≤ k / 2 ∧ (mc = true → (a : ℕ) < k / 2) := by
  unfold verticalMask at h
  by_cases h1 : k / 2 + 1 ≤ (a : ℕ)
  · rw [if_pos h1] at h
    exact absurd rfl h
  · rw [if_neg h1] at h
    by_cases h2 : mc = true ∧ (a : ℕ) = k / 2
    · rw [if_pos h2] at h
      exact absurd rfl h
    · refine ⟨by omega, ?_⟩
      intro hmc
      rcases Nat.lt_or_ge ((a : ℕ)) (k / 2) with hlt | hge
      · exact hlt
      · exact absurd ⟨hmc, by omega⟩ h2

/-- A tap of the horizontal mask with a nonzero entry lies in a column at
most the center column, strictly left of it when the center is masked. -/
lemma horizontalMask_live (k : ℕ) (mc : Bool) (a : Fin 1) (b : Fin k)
    (h : horizontalMask k mc a b ≠ 0) :
    (b : ℕ) ≤ k / 2 ∧ (mc = true → (b : ℕ) < k / 2) := by
  unfold horizontalMask at h
  by_cases h1 : k / 2 + 1 ≤ (b : ℕ)
  · rw [if_pos h1] at h
    exact absurd rfl h
  · rw [if_neg h1] at h
    by_cases h2 : mc = true ∧ (b : ℕ) = k / 2
    · rw [if_pos h2] at h
      exact absurd rfl h
    · refine ⟨by omega, ?_⟩
      intro hmc
      rcases Nat.lt_or_ge ((b : ℕ)) (k / 2) with hlt | hge
      · exact hlt
      · exact absurd ⟨hmc, by omega⟩ h2

/-- A nonzero entry of the masked weight of a constructed vertical-stack
convolution has a nonzero mask entry. -/
lemma vsc_weight_live {cin cout k : ℕ} (mc : Bool) (d : ℕ)
    (w : Fin cout → Fin cin → Fin k → Fin k → ℝ) (bs : Fin cout → ℝ)
    (oc : Fin cout) (ic : Fin cin) (a b : Fin k)
    (h : (VerticalStackConvolution cin cout k mc d w bs).maskWeights.conv.weight oc ic a b
      ≠ 0) : verticalMask k mc a b ≠ 0 := by
  intro h0
  apply h
  show w oc ic a b * ((verticalMask k mc a b : ℚ) : ℝ) = 0
  rw [h0]
  simp

/-- A nonzero entry of the masked weight of a constructed horizontal-stack
convolution has a nonzero mask entry. -/
lemma hsc_weight_live {cin cout k : ℕ} (mc : Bool) (d : ℕ)
    (w : Fin cout → Fin cin → Fin 1 → Fin k → ℝ) (bs : Fin cout → ℝ)
    (oc : Fin cout) (ic : Fin cin) (a : Fin 1) (b : Fin k)
    (h : (HorizontalStackConvolution cin cout k mc d w bs).maskWeights.conv.weight oc ic a b
      ≠ 0) : horizontalMask k mc a b ≠ 0 := by
  intro h0
  apply h
  show w oc ic a b * ((horizontalMask k mc a b : ℚ) : ℝ) = 0
  rw [h0]
  simp

/-- Congruence for a center-kept vertical-stack convolution: its output at a
cell in rows up to `r` reads only padded input rows up to `r`. -/
lemma vconvFalse_congr {cin cout : ℕ} (k d : ℕ) (hk : k % 2 = 1)
    (w : Fin cout → Fin cin → Fin k → Fin k → ℝ) (bs : Fin cout → ℝ)
    (H1 W1 H2 W2 : ℕ) (x x' : FeatureMap cin) (r : ℤ)
    (hag : ∀ (ic : Fin cin) (i' j' : ℤ), i' ≤ r →
      boundedGet H1 W1 (x ic) i' j' = boundedGet H2 W2 (x' ic) i' j')
    (i j : ℤ) (hi : i ≤ r) :
    ∀ oc, ((VerticalStackConvolution cin cout k false d w bs).forward H1 W1 x).2 oc i j
      = ((VerticalStackConvolution cin cout k false d w bs).forward H2 W2 x').2 oc i j := by
  rw [maskedConv_forward_value, maskedConv_forward_value]
  have hdil : (VerticalStackConvolution cin cout k false d w bs).dilation = d := rfl
  rw [hdil]
  apply conv2dApply_congr
  intro ic a b hex
  obtain ⟨oc', hw⟩ := hex
  have hmask := vsc_weight_live false d w bs oc' ic a b hw
  have hlive := (verticalMask_live k false a b hmask).1
  have h1 : d * (a : ℕ) ≤ padOf d k :=
    le_trans (Nat.mul_le_mul_left d hlive) (padOf_ge_center d k hk)
  have h2 : (d : ℤ) * ((a : ℕ) : ℤ) ≤ ((padOf d k : ℕ) : ℤ) := by exact_mod_cast h1
  apply hag
  linarith

/-- Congruence for a center-masked vertical-stack convolution with positive
dilation: its output at a cell in rows up to `r` reads only padded input
rows strictly below `r`. -/
lemma vconvTrue_congr {cin cout : ℕ} (k d : ℕ) (hk : k % 2 = 1) (hd : 1 ≤ d)
    (w : Fin cout → Fin cin → Fin k → Fin k → ℝ) (bs : Fin cout → ℝ)
    (H1 W1 H2 W2 : ℕ) (x x' : FeatureMap cin) (r : ℤ)
    (hag : ∀ (ic : Fin cin) (i' j' : ℤ), i' < r →
      boundedGet H1 W1 (x ic) i' j' = boundedGet H2 W2 (x' ic) i' j')
    (i j : ℤ) (hi : i ≤ r) :
    ∀ oc, ((VerticalStackConvolution cin cout k true d w bs).forward H1 W1 x).2 oc i j
      = ((VerticalStackConvolution cin cout k true d w bs).forward H2 W2 x').2 oc i j := by
  rw [maskedConv_forward_value, maskedConv_forward_value]
  have hdil : (VerticalStackConvolution cin cout k true d w bs).dilation = d := rfl
  rw [hdil]
  apply conv2dApply_congr
  intro ic a b hex
  obtain ⟨oc', hw⟩ := hex
  have hmask := vsc_weight_live true d w bs oc' ic a b hw
  have hlive := (verticalMask_live k true a b hmask).2 rfl
  have h1 : d * ((a : ℕ) + 1) ≤ padOf d k :=
    le_trans (Nat.mul_le_mul_left d (by omega)) (padOf_ge_center d k hk)
  have h2 : (d : ℤ) * ((a : ℕ) : ℤ) + (d : ℤ) ≤ ((padOf d k : ℕ) : ℤ) := by
    have h1' : d * (a : ℕ) + d ≤ padOf d k := by
      calc d * (a : ℕ) + d = d * ((a : ℕ) + 1) := by ring
      _ ≤ padOf d k := h1
    exact_mod_cast h1'
  have hd' : (1 : ℤ) ≤ (d : ℤ) := by exact_mod_cast hd
  apply hag
  linarith

/-- The single kernel row of a horizontal-stack convolution reads exactly
the output row. -/
lemma horiz_row_eq (d : ℕ) (a : Fin 1) (i : ℤ) :
    i + (d : ℤ) * ((a : ℕ) : ℤ) - ((padOf d 1 : ℕ) : ℤ) = i := by
  have ha := a.2
  have ha0 : (a : ℕ) = 0 := by omega
  rw [ha0]
  simp [padOf]

/-- Congruence for a center-kept horizontal-stack convolution: its output at
`(i, j)` reads only padded input in row `i` at columns up to `j`. -/
lemma hconvFalse_congr {cin cout : ℕ} (k d : ℕ) (hk : k % 2 = 1)
    (w : Fin cout → Fin cin → Fin 1 → Fin k → ℝ) (bs : Fin cout → ℝ)
    (H1 W1 H2 W2 : ℕ) (x x' : FeatureMap cin) (i j : ℤ)
    (hag : ∀ (ic : Fin cin) (j' : ℤ), j' ≤ j →
      boundedGet H1 W1 (x ic) i j' = boundedGet H2 W2 (x' ic) i j') :
    ∀ oc, ((HorizontalStackConvolution cin cout k false d w bs).forward H1 W1 x).2 oc i j
      = ((HorizontalStackConvolution cin cout k false d w bs).forward H2 W2 x').2 oc i j := by
  rw [maskedConv_forward_value, maskedConv_forward_value]
  have hdil : (HorizontalStackConvolution cin cout k false d w bs).dilation = d := rfl
  rw [hdil]
  apply conv2dApply_congr
  intro ic a b hex
  obtain ⟨oc', hw⟩ := hex
  have hmask := hsc_weight_live false d w bs oc' ic a b hw
  have hlive := (horizontalMask_live k false a b hmask).1
  have h1 : d * (b : ℕ) ≤ padOf d k :=
    le_trans (Nat.mul_le_mul_left d hlive) (padOf_ge_center d k hk)
  have h2 : (d : ℤ) * ((b : ℕ) : ℤ) ≤ ((padOf d k : ℕ) : ℤ) := by exact_mod_cast h1
  rw [horiz_row_eq]
  apply hag
  linarith

/-- Congruence for a center-masked horizontal-stack convolution with
positive dilation: its output at `(i, j)` reads only padded input in row `i`
at columns strictly left of `j`. -/
lemma hconvTrue_congr {cin cout : ℕ} (k d : ℕ) (hk : k % 2 = 1) (hd : 1 ≤ d)
    (w : Fin cout → Fin cin → Fin 1 → Fin k → ℝ) (bs : Fin cout → ℝ)
    (H1 W1 H2 W2 : ℕ) (x x' : FeatureMap cin) (i j : ℤ)
    (hag : ∀ (ic : Fin cin) (j' : ℤ), j' < j →
      boundedGet H1 W1 (x ic) i j' = boundedGet H2 W2 (x' ic) i j') :
    ∀ oc, ((HorizontalStackConvolution cin cout k true d w bs).forward H1 W1 x).2 oc i j
      = ((HorizontalStackConvolution cin cout k true d w bs).forward H2 W2 x').2 oc i j := by
  rw [maskedConv_forward_value, maskedConv_forward_value]
  have hdil : (HorizontalStackConvolution cin cout k true d w bs).dilation = d := rfl
  rw [hdil]
  apply conv2dApply_congr
  intro ic a b hex
  obtain ⟨oc', hw⟩ := hex
  have hmask := hsc_weight_live true d w bs oc' ic a b hw
  have hlive := (horizontalMask_live k true a b hmask).2 rfl
  have h1 : d * ((b : ℕ) + 1) ≤ padOf d k :=
    le_trans (Nat.mul_le_mul_left d (by omega)) (padOf_ge_center d k hk)
  have h2 : (d : ℤ) * ((b : ℕ) : ℤ) + (d : ℤ) ≤ ((padOf d k : ℕ) : ℤ) := by
    have h1' : d * (b : ℕ) + d ≤ padOf d k := by
      calc d * (b : ℕ) + d = d * ((b : ℕ) + 1) := by ring
      _ ≤ padOf d k := h1
    exact_mod_cast h1'
  have hd' : (1 : ℤ) ≤ (d : ℤ) := by exact_mod_cast hd
  rw [horiz_row_eq]
  apply hag
  linarith

/-- Congruence for a 1×1 convolution with unit dilation: its output at
`(i, j)` reads only the padded input at `(i, j)`. -/
lemma conv1x1_congr {cin cout : ℕ} (p : Conv2dParams cin cout 1 1) (H1 W1 H2 W2 : ℕ)
    (x x' : FeatureMap cin) (i j : ℤ)
    (hag : ∀ ic, boundedGet H1 W1 (x ic) i j = boundedGet H2 W2 (x' ic) i j) :
    ∀ oc, conv2dApply p 1 H1 W1 x oc i j = conv2dApply p 1 H2 W2 x' oc i j := by
  apply conv2dApply_congr
  intro ic a b _
  rw [horiz_row_eq 1 a i, horiz_row_eq 1 b j]
  exact hag ic

/-- One gated layer preserves the pair of agreement invariants: vertical
stacks agreeing at rows up to `r`, horizontal stacks agreeing on a
leftward-closed region `S` contained in rows up to `r`. -/
lemma gated_congr {c : ℕ} (g : GatedMaskedConv c) (d H1 H2 W : ℕ) (r : ℤ)
    (S : ℤ → ℤ → Prop)
    (hSr : ∀ i j, S i j → i ≤ r)
    (hSmono : ∀ i j j', S i j → j' ≤ j → S i j')
    (hcompat : ∀ i : ℤ, i ≤ r → ((i < (H1 : ℤ)) ↔ (i < (H2 : ℤ))))
    (v v' h h' : FeatureMap c)
    (hv : ∀ ch (i j : ℤ), i ≤ r → v ch i j = v' ch i j)
    (hh : ∀ ch (i j : ℤ), S i j → h ch i j = h' ch i j) :
    (∀ ch (i j : ℤ), i ≤ r →
      (g.forward d H1 W v h).1 ch i j = (g.forward d H2 W v' h').1 ch i j) ∧
    (∀ ch (i j : ℤ), S i j →
      (g.forward d H1 W v h).2 ch i j = (g.forward d H2 W v' h').2 ch i j) := by
  have hbgv : ∀ (ic : Fin c) (i' j' : ℤ), i' ≤ r →
      boundedGet H1 W (v ic) i' j' = boundedGet H2 W (v' ic) i' j' := by
    intro ic i' j' hi'
    exact boundedGet_congr (hcompat i' hi') fun _ _ _ _ => hv ic i' j' hi'
  have hvFeat : ∀ (oc : Fin (2 * c)) (i j : ℤ), i ≤ r →
      g.vFeat d H1 W v oc i j = g.vFeat d H2 W v' oc i j := by
    intro oc i j hi
    exact vconvFalse_congr 3 d rfl g.wVert g.bVert H1 W H2 W v v' r hbgv i j hi oc
  have hhFeat : ∀ (oc : Fin (2 * c)) (i j : ℤ), S i j →
      g.hFeat d H1 W v h oc i j = g.hFeat d H2 W v' h' oc i j := by
    intro oc i j hS
    unfold GatedMaskedConv.hFeat
    have h1 := hconvFalse_congr 3 d rfl g.wHoriz g.bHoriz H1 W H2 W h h' i j
      (fun ic j' hj' => boundedGet_congr (hcompat i (hSr i j hS))
        fun _ _ _ _ => hh ic i j' (hSmono i j j' hS hj')) oc
    have h2 := conv1x1_congr g.vertToHoriz H1 W H2 W (g.vFeat d H1 W v) (g.vFeat d H2 W v')
      i j (fun ic => boundedGet_congr (hcompat i (hSr i j hS))
        fun _ _ _ _ => hvFeat ic i j (hSr i j hS)) oc
    rw [h1, h2]
  constructor
  · intro ch i j hi
    show g.vOut d H1 W v ch i j = g.vOut d H2 W v' ch i j
    unfold GatedMaskedConv.vOut chunkLo chunkHi
    have e1 := hvFeat ⟨ch.1, by have := ch.2; omega⟩ i j hi
    have e2 := hvFeat ⟨c + ch.1, by have := ch.2; omega⟩ i j hi
    rw [e1, e2]
  · intro ch i j hS
    show g.hOut d H1 W v h ch i j = g.hOut d H2 W v' h' ch i j
    unfold GatedMaskedConv.hOut
    rw [hh ch i j hS]
    congr 1
    apply conv1x1_congr
    intro ic
    apply boundedGet_congr (hcompat i (hSr i j hS))
    intro _ _ _ _
    unfold chunkLo chunkHi
    have e1 := hhFeat ⟨ic.1, by have := ic.2; omega⟩ i j hS
    have e2 := hhFeat ⟨c + ic.1, by have := ic.2; omega⟩ i j hS
    rw [e1, e2]

/-- The agreement invariants are preserved by any list of gated layers. -/
lemma runLayers_congr {c : ℕ} (ls : List (ℕ × GatedMaskedConv c)) (H1 H2 W : ℕ) (r : ℤ)
    (S : ℤ → ℤ → Prop)
    (hSr : ∀ i j, S i j → i ≤ r)
    (hSmono : ∀ i j j', S i j → j' ≤ j → S i j')
    (hcompat : ∀ i : ℤ, i ≤ r → ((i < (H1 : ℤ)) ↔ (i < (H2 : ℤ)))) :
    ∀ v v' h h' : FeatureMap c,
      (∀ ch (i j : ℤ), i ≤ r → v ch i j = v' ch i j) →
      (∀ ch (i j : ℤ), S i j → h ch i j = h' ch i j) →
      (∀ ch (i j : ℤ), i ≤ r →
        (runLayers ls H1 W v h).1 ch i j = (runLayers ls H2 W v' h').1 ch i j) ∧
      (∀ ch (i j : ℤ), S i j →
        (runLayers ls H1 W v h).2 ch i j = (runLayers ls H2 W v' h').2 ch i j) := by
  induction ls with
  | nil => intro v v' h h' hv hh; exact ⟨hv, hh⟩
  | cons p t ih =>
    intro v v' h h' hv hh
    obtain ⟨d, g⟩ := p
    have hg := gated_congr g d H1 H2 W r S hSr hSmono hcompat v v' h h' hv hh
    exact ih _ _ _ _ hg.1 hg.2

/-- The initial center-masked stacks establish the agreement invariants:
the vertical stack reads only padded rows strictly below `r`, and the
horizontal stack at a cell of `S` reads only padded columns strictly to the
left within the same row. -/
lemma stacks_congr {cin chidden : ℕ} (m : PixelCNNModel cin chidden) (H1 H2 W : ℕ)
    (x x' : IntImage cin) (r : ℤ) (S : ℤ → ℤ → Prop)
    (hbgv : ∀ (ic : Fin cin) (i' j' : ℤ), i' < r →
      boundedGet H1 W (fun a b => rescalePixel (x ic a b)) i' j'
        = boundedGet H2 W (fun a b => rescalePixel (x' ic a b)) i' j')
    (hbgh : ∀ (ic : Fin cin) (i j j' : ℤ), S i j → j' < j →
      boundedGet H1 W (fun a b => rescalePixel (x ic a b)) i j'
        = boundedGet H2 W (fun a b => rescalePixel (x' ic a b)) i j') :
    (∀ ch (i j : ℤ), i ≤ r → (m.stacks H1 W x).1 ch i j = (m.stacks H2 W x').1 ch i j) ∧
    (∀ ch (i j : ℤ), S i j → (m.stacks H1 W x).2 ch i j = (m.stacks H2 W x').2 ch i j) := by
  constructor
  · intro ch i j hi
    exact vconvTrue_congr 3 1 rfl (le_refl 1) m.wV m.bV H1 W H2 W
      (fun c a b => rescalePixel (x c a b)) (fun c a b => rescalePixel (x' c a b))
      r hbgv i j hi ch
  · intro ch i j hS
    exact hconvTrue_congr 3 1 rfl (le_refl 1) m.wH m.bH H1 W H2 W
      (fun c a b => rescalePixel (x c a b)) (fun c a b => rescalePixel (x' c a b))
      i j (fun ic j' hj' => hbgh ic i j j' hS hj') ch

/-- Congruence of the full forward pass on a leftward-closed region `S`
contained in rows up to `r`, given padded-input agreement below `r` and to
the left within `S` rows. -/
lemma forwardSingle_congr {cin chidden : ℕ} (m : PixelCNNModel cin chidden)
    (H1 H2 W : ℕ) (x x' : IntImage cin) (r : ℤ) (S : ℤ → ℤ → Prop)
    (hSr : ∀ i j, S i j → i ≤ r)
    (hSmono : ∀ i j j', S i j → j' ≤ j → S i j')
    (hcompat : ∀ i : ℤ, i ≤ r → ((i < (H1 : ℤ)) ↔ (i < (H2 : ℤ))))
    (hbgv : ∀ (ic : Fin cin) (i' j' : ℤ), i' < r →
      boundedGet H1 W (fun a b => rescalePixel (x ic a b)) i' j'
        = boundedGet H2 W (fun a b => rescalePixel (x' ic a b)) i' j')
    (hbgh : ∀ (ic : Fin cin) (i j j' : ℤ), S i j → j' < j →
      boundedGet H1 W (fun a b => rescalePixel (x ic a b)) i j'
        = boundedGet H2 W (fun a b => rescalePixel (x' ic a b)) i j') :
    ∀ (cls : Fin 256) (ch : Fin cin) (i j : ℤ), S i j →
      m.forwardSingle H1 W x cls ch i j = m.forwardSingle H2 W x' cls ch i j := by
  obtain ⟨hst1, hst2⟩ := stacks_congr m H1 H2 W x x' r S hbgv hbgh
  obtain ⟨htr1, htr2⟩ := runLayers_congr (gatedLayerList m) H1 H2 W r S hSr hSmono hcompat
    (m.stacks H1 W x).1 (m.stacks H2 W x').1 (m.stacks H1 W x).2 (m.stacks H2 W x').2
    hst1 hst2
  intro cls ch i j hS
  show conv2dApply m.convOut 1 H1 W (fun c' i' j' => elu ((m.trunk H1 W x).2 c' i' j'))
      (outChannelIndex cls ch) i j
    = conv2dApply m.convOut 1 H2 W (fun c' i' j' => elu ((m.trunk H2 W x').2 c' i' j'))
      (outChannelIndex cls ch) i j
  apply conv1x1_congr
  intro ic
  apply boundedGet_congr (hcompat i (hSr i j hS))
  intro _ _ _ _
  exact congrArg elu (htr2 ic i j hS)

/-- Position `(i, j, ch)` precedes or equals `(hR, wC, c)` in
raster-then-channel order: earlier row, or same row and earlier column, or
same cell and channel index at most that of `c`. -/
def rasterChannelLE {C : ℕ} (i j : ℤ) (ch : Fin C) (hR wC : ℤ) (c : Fin C) : Prop :=
  i < hR ∨ (i = hR ∧ j < wC) ∨ (i = hR ∧ j = wC ∧ (ch : ℕ) ≤ (c : ℕ))

/-- Claim C1 (causality of forward): for two valid images that agree at
every in-grid position up to and including a chosen cell `(hR, wC, c)` in
raster-then-channel order, the forward logits agree at that cell and at
every earlier cell, regardless of differences at later cells. -/
theorem claim_C1_forward_causality {cin chidden : ℕ} (m : PixelCNNModel cin chidden)
    (H W : ℕ) (x x' : IntImage cin) (hR wC : ℤ) (c : Fin cin)
    (_hxv : ∀ ch (i j : ℤ), 0 ≤ i → i < (H : ℤ) → 0 ≤ j → j < (W : ℤ) →
      0 ≤ x ch i j ∧ x ch i j ≤ 255)
    (_hxv' : ∀ ch (i j : ℤ), 0 ≤ i → i < (H : ℤ) → 0 ≤ j → j < (W : ℤ) →
      0 ≤ x' ch i j ∧ x' ch i j ≤ 255)
    (hagree : ∀ ch (i j : ℤ), 0 ≤ i → i < (H : ℤ) → 0 ≤ j → j < (W : ℤ) →
      rasterChannelLE i j ch hR wC c → x ch i j = x' ch i j) :
    ∀ (cls : Fin 256) (ch : Fin cin) (i j : ℤ), rasterChannelLE i j ch hR wC c →
      m.forwardSingle H W x cls ch i j = m.forwardSingle H W x' cls ch i j := by
  intro cls ch i j hle
  have hS : i < hR ∨ (i = hR ∧ j ≤ wC) := by
    rcases hle with h1 | ⟨h1, h2⟩ | ⟨h1, h2, _⟩
    · exact Or.inl h1
    · exact Or.inr ⟨h1, le_of_lt h2⟩
    · exact Or.inr ⟨h1, le_of_eq h2⟩
  refine forwardSingle_congr m H H W x x' hR (fun i' j' => i' < hR ∨ (i' = hR ∧ j' ≤ wC))
    ?_ ?_ ?_ ?_ ?_ cls ch i j hS
  · intro i' j' hS'
    rcases hS' with h1 | ⟨h1, _⟩
    · exact le_of_lt h1
    · exact le_of_eq h1
  · intro i' j' j'' hS' hj
    rcases hS' with h1 | ⟨h1, h2⟩
    · exact Or.inl h1
    · exact Or.inr ⟨h1, le_trans hj h2⟩
  · intro i' _
    exact Iff.rfl
  · intro ic i' j' hi'
    apply boundedGet_congr Iff.rfl
    intro hb1 hb2 hb3 hb4
    rw [hagree ic i' j' hb1 hb2 hb3 hb4 (Or.inl hi')]
  · intro ic i' j' j'' hS' hj
    apply boundedGet_congr Iff.rfl
    intro hb1 hb2 hb3 hb4
    rcases hS' with h1 | ⟨h1, h2⟩
    · rw [hagree ic i' j'' hb1 hb2 hb3 hb4 (Or.inl h1)]
    · rw [hagree ic i' j'' hb1 hb2 hb3 hb4 (Or.inr (Or.inl ⟨h1, by omega⟩))]

/-- Witness for claim C1 at concrete inputs: on a 1×2 single-channel image,
changing the pixel after the chosen cell `(0, 0, 0)` from 0 to 7 leaves the
logits at that cell unchanged. -/
theorem claim_C1_witness :
    (zeroModel 1 1).forwardSingle 1 2 (fun _ _ _ => 0) 0 0 0 0
      = (zeroModel 1 1).forwardSingle 1 2 (fun _ _ j => if j = 0 then 0 else 7) 0 0 0 0 :=
  claim_C1_forward_causality (zeroModel 1 1) 1 2 (fun _ _ _ => 0)
    (fun _ _ j => if j = 0 then 0 else 7) 0 0 0
    (fun _ _ _ _ _ _ _ => ⟨le_refl 0, by norm_num⟩)
    (fun _ i j _ _ _ _ => by by_cases hj : j = 0 <;> simp [hj])
    (fun ch i j h1 h2 h3 h4 hle => by
      have hj : j = 0 := by
        rcases hle with hl | ⟨_, hl⟩ | ⟨_, hj, _⟩
        · omega
        · omega
        · exact hj
      simp [hj])
    0 0 0 0 (Or.inr (Or.inr ⟨rfl, rfl, le_refl 0⟩))

/-- Claim C3 (crop equivalence in sampling): for every valid image and row
index `hR < H`, forward on the image cropped to rows `[0, hR]` inclusive
(height `hR + 1`) yields, at every output position in rows up to `hR`,
exactly the same logits as forward on the full-height image. -/
theorem claim_C3_crop_equivalence {cin chidden : ℕ} (m : PixelCNNModel cin chidden)
    (H W : ℕ) (x : IntImage cin) (hR : ℕ) (hcrop : hR < H)
    (_hxv : ∀ ch (i j : ℤ), 0 ≤ i → i < (H : ℤ) → 0 ≤ j → j < (W : ℤ) →
      0 ≤ x ch i j ∧ x ch i j ≤ 255) :
    ∀ (cls : Fin 256) (ch : Fin cin) (i j : ℤ), i ≤ (hR : ℤ) →
      m.forwardSingle (hR + 1) W x cls ch i j = m.forwardSingle H W x cls ch i j := by
  intro cls ch i j hi
  refine forwardSingle_congr m (hR + 1) H W x x (hR : ℤ) (fun i' _ => i' ≤ (hR : ℤ))
    (fun i' j' hi' => hi') (fun i' j' j'' hi' _ => hi') ?_ ?_ ?_ cls ch i j hi
  · intro i' hi'
    constructor
    · intro _
      omega
    · intro _
      omega
  · intro ic i' j' hi'
    apply boundedGet_congr ?_ fun _ _ _ _ => rfl
    constructor
    · intro _
      omega
    · intro _
      omega
  · intro ic i' j' j'' hi' hj
    apply boundedGet_congr ?_ fun _ _ _ _ => rfl
    constructor
    · intro _
      omega
    · intro _
      omega

/-- Witness for claim C3 at concrete inputs: on a 2×1 single-channel zero
image, forward on the crop to the first row gives the same logit at row 0 as
forward on the full image. -/
theorem claim_C3_witness :
    (zeroModel 1 1).forwardSingle (0 + 1) 1 (fun _ _ _ => 0) 0 0 0 0
      = (zeroModel 1 1).forwardSingle 2 1 (fun _ _ _ => 0) 0 0 0 0 :=
  claim_C3_crop_equivalence (zeroModel 1 1) 2 1 (fun _ _ _ => 0) 0 (by norm_num)
    (fun _ _ _ _ _ _ _ => ⟨le_refl 0, by norm_num⟩) 0 0 0 0 (by norm_num)
